import Mathlib

/-!
Verification development for the `idle_champions_codes_crawler` repository.

The repository's core is `src/parse.rs`: a resolver that turns a free-text
expiry expression into a seconds-since-epoch instant at UTC midnight.  The
remaining files contain a small TTL cache (`src/cache.rs`) and a Discord
message handler (`src/handler/discord.rs`).

This file gives a shallow embedding of those parts:
* text is modelled as `List Char` (the inputs of interest are ASCII);
* the four regular expressions compiled in `TimeParser::new` are embedded as
  dedicated matcher functions implementing the leftmost-first, greedy
  match semantics of the Rust `regex` crate for exactly those patterns;
* the live clock reads (`time::OffsetDateTime::now_utc()`) are threaded as an
  explicit reference date `RefDate` (year / month / day of "now"), which is
  the only data the code ever extracts from the clock;
* calendar arithmetic of the `time` crate (`Date::from_calendar_date`,
  `unix_timestamp`) is embedded with the standard civil-from-days arithmetic
  over the proleptic Gregorian calendar.
-/

namespace Crawler

/-! ## Basic character / string helpers -/

/-- Characters accepted by the regex separator class (slash or hyphen). -/
def isSep (c : Char) : Bool := c == '/' || c == '-'

/-- ASCII fragment of the regex class `\w` (letters, digits, underscore).
All inputs relevant to the claims are ASCII. -/
def isWordChar (c : Char) : Bool := c.isAlphanum || c == '_'

/-- `listPrefixOf needle hay` : `needle` is a prefix of `hay`. -/
def listPrefixOf : List Char → List Char → Bool
  | [], _ => true
  | _ :: _, [] => false
  | a :: as, b :: bs => a == b && listPrefixOf as bs

/-- Embedding of Rust `str::contains(needle)`: `needle` occurs as a
contiguous substring of `hay`. -/
def containsSub : List Char → List Char → Bool
  | hay, needle =>
    listPrefixOf needle hay ||
      match hay with
      | [] => false
      | _ :: t => containsSub t needle

/-- Decimal value of a list of digit characters (most significant first). -/
def listVal (l : List Char) : Nat :=
  l.foldl (fun a c => 10 * a + (c.toNat - 48)) 0

/-- Embedding of Rust `str::parse::<u8>()` on the digit-only strings produced
by the `\d{..}` captures (no sign handling is needed for those). -/
def parseU8 (l : List Char) : Option Nat :=
  if l ≠ [] ∧ l.all Char.isDigit ∧ listVal l ≤ 255 then some (listVal l) else none

/-- Embedding of Rust `str::parse::<i32>()` on digit-only capture strings. -/
def parseI32 (l : List Char) : Option Int :=
  if l ≠ [] ∧ l.all Char.isDigit ∧ listVal l ≤ 2147483647 then
    some (listVal l : Int)
  else none

/-- The decimal digit character for `n < 10`. -/
def digitChar (n : Nat) : Char := Char.ofNat (48 + n)

/-- Decimal numeral of a natural number, as the list of its digit characters
(used to synthesize the round-trip inputs of §8 of the spec). -/
def natDigits (n : Nat) : List Char :=
  if _h : n < 10 then [digitChar n]
  else natDigits (n / 10) ++ [digitChar (n % 10)]
  decreasing_by exact Nat.div_lt_self (by omega) (by omega)

/-! ## Calendar arithmetic (embedding of the `time` crate)

`civilDays y m d` is the number of days from 1970-01-01 to the proleptic
Gregorian date `(y, m, d)` (Howard Hinnant's `days_from_civil`; `/` and `%`
on `Int` in Lean are Euclidean and the divisors are positive, so they are
floor division as required). -/

def civilDays (y : Int) (m d : Nat) : Int :=
  let y' : Int := if m ≤ 2 then y - 1 else y
  let era : Int := y' / 400
  let yoe : Int := y' - era * 400
  let mp : Int := ((m : Int) + 9) % 12
  let doy : Int := (153 * mp + 2) / 5 + (d : Int) - 1
  let doe : Int := yoe * 365 + yoe / 4 - yoe / 100 + doy
  era * 146097 + doe - 719468

/-- Gregorian leap-year test. -/
def isLeapYear (y : Int) : Bool :=
  y % 4 == 0 && (y % 100 != 0 || y % 400 == 0)

/-- Length of month `m` in year `y`. -/
def daysInMonth (y : Int) (m : Nat) : Nat :=
  if m = 2 then (if isLeapYear y then 29 else 28)
  else if m = 4 ∨ m = 6 ∨ m = 9 ∨ m = 11 then 30
  else 31

/-- Validity test of `time::Date::from_calendar_date` (month already checked
via `Month::try_from`): day in range for the month, year within the crate's
supported range `-9999..=9999`. -/
def calendarDateOk (y : Int) (m d : Nat) : Bool :=
  1 ≤ d && d ≤ daysInMonth y m && -9999 ≤ y && y ≤ 9999

/-- Two's-complement cast of an `i64` value to `u64` (`as u64` in Rust). -/
def intToU64 (x : Int) : Nat := (x % (2 ^ 64 : Int)).toNat

/-- The reference instant: the calendar date of `now_utc()`.  The code only
ever consumes the current year, the current month and the current date from
the clock, so this is the whole reference state, threaded explicitly. -/
structure RefDate where
  year : Int
  month : Nat
  day : Nat
deriving DecidableEq

/-- Days from epoch of the reference date. -/
def RefDate.days (ref : RefDate) : Int := civilDays ref.year ref.month ref.day

/-! ## Embedding of `src/parse.rs` -/

/-- `next_week()`: UTC midnight of the date seven days after the reference
date, cast `as u64`. -/
def next_week (ref : RefDate) : Nat :=
  intToU64 ((ref.days + 7) * 86400)

/-- `TimeParser::date_to_unix`: seconds since epoch at UTC midnight of the
date; negative instants are rejected. -/
def date_to_unix (y : Int) (m d : Nat) : Option Nat :=
  let ts : Int := civilDays y m d * 86400
  if ts < 0 then none else some ts.toNat

/-- `TimeParser::safety_net`: an instant more than 32 days (2764800 s) past
the one-week-from-now bound is replaced by the bound. -/
def safety_net (ref : RefDate) (ts : Nat) : Nat :=
  let nextweek := next_week ref
  if ts > nextweek + 2764800 then nextweek else ts

/-- `TimeParser::predict_year`: the current year, except that a January date
seen in December belongs to the next year.  An out-of-range month (which
`Month::try_from` rejects) falls back to the current year. -/
def predict_year (ref : RefDate) (month : Nat) : Int :=
  if 1 ≤ month ∧ month ≤ 12 then
    if month = 1 ∧ ref.month = 12 then ref.year + 1 else ref.year
  else ref.year

/-- `TimeParser::normalize_year`: add 2000 to sub-1000 years, then override a
year more than one behind the current year by the current year. -/
def normalize_year (ref : RefDate) (year : Int) : Int :=
  let year1 := if year < 1000 then year + 2000 else year
  if ref.year - 1 > year1 then ref.year else year1

/-- The month-name table of `TimeParser::month_from_str` (all entries are
lower case, as is its input). -/
def monthTable : List (List Char × Nat) :=
  [("jan".data, 1), ("january".data, 1),
   ("feb".data, 2), ("february".data, 2),
   ("mar".data, 3), ("march".data, 3),
   ("apr".data, 4), ("april".data, 4),
   ("may".data, 5),
   ("jun".data, 6), ("june".data, 6),
   ("jul".data, 7), ("july".data, 7),
   ("aug".data, 8), ("august".data, 8),
   ("sep".data, 9), ("september".data, 9),
   ("oct".data, 10), ("october".data, 10),
   ("nov".data, 11), ("november".data, 11),
   ("dec".data, 12), ("december".data, 12)]

/-- Association-list lookup (first match). -/
def assocLookup {α : Type} [DecidableEq α] {β : Type} :
    List (α × β) → α → Option β
  | [], _ => none
  | e :: t, k => if e.1 = k then some e.2 else assocLookup t k

/-- `TimeParser::month_from_str`: a recognized English month name maps to its
number; anything else falls back to the current month.  (The Rust code
lowercases its argument again; the argument is already lowercased by
`parse`, and the table holds lowercase keys.) -/
def month_from_str (ref : RefDate) (m : List Char) : Nat :=
  match assocLookup monthTable m with
  | some n => n
  | none => ref.month

/-- `TimeParser::format_from_ymd`: late order correction (month > 12 with a
plausible day swaps month and day), then `Month::try_from` and
`Date::from_calendar_date`, then conversion to a unix instant. -/
def format_from_ymd (y : Int) (m d : Nat) : Option Nat :=
  let md := if m > 12 ∧ d ≤ 12 then (d, m) else (m, d)
  let m := md.1
  let d := md.2
  if 1 ≤ m ∧ m ≤ 12 then
    if calendarDateOk y m d then date_to_unix y m d else none
  else none

/-! ## The four regular expressions of `TimeParser::new`

Each pattern is hand-compiled to a position matcher that explores the
alternatives in the preference order of a leftmost-first (Perl-style)
engine — greedy quantifiers try the longer alternative first and fall back —
which is the match semantics of the Rust `regex` crate.  `findCaptures`
returns the captures at the earliest matching start position, as
`Regex::captures` does. -/

/-- Leftmost scan: run the position matcher `f` at every position from the
left and keep the first success. -/
def findCaptures {α : Type} (f : List Char → Option α) : List Char → Option α
  | [] => f []
  | l@(_ :: t) =>
    match f l with
    | some v => some v
    | none => findCaptures f t

/-- Greedy run of at most `bound` digit characters. -/
def takeDigits : Nat → List Char → List Char
  | 0, _ => []
  | _ + 1, [] => []
  | bound + 1, c :: rest => if c.isDigit then c :: takeDigits bound rest else []

/-- A final greedy `(d digit, 1 to 2 times)` capture: nothing follows it in
the pattern, so the two-digit preference is final. -/
def digits12 : List Char → Option (List Char)
  | c :: rest => if c.isDigit then some (takeDigits 2 (c :: rest)) else none
  | [] => none

/-- A separator followed by a final 1-to-2-digit capture. -/
def sepThenDigits12 : List Char → Option (List Char)
  | s :: rest => if isSep s then digits12 rest else none
  | [] => none

/-- The core `month separator day` of the year-first pattern: the month
field is greedy (two digits, backtracking to one when no separator
follows). -/
def mdCore : List Char → Option (List Char × List Char)
  | c1 :: rest =>
    if c1.isDigit then
      let two : Option (List Char × List Char) :=
        match rest with
        | c2 :: r2 =>
          if c2.isDigit then (sepThenDigits12 r2).map (fun dd => ([c1, c2], dd))
          else none
        | [] => none
      match two with
      | some v => some v
      | none => (sepThenDigits12 rest).map (fun dd => ([c1], dd))
    else none
  | [] => none

/-- Position matcher of `regex_yyyymmdd` (optional group of a four-digit
year and a separator, then two 1-to-2-digit fields separated by a
separator).  The optional year group is greedy: it is tried first and the
skipped alternative is used when the year prefix or the rest after it
fails. -/
def yyyymmddAt (l : List Char) : Option (Option (List Char) × List Char × List Char) :=
  let withYear : Option (Option (List Char) × List Char × List Char) :=
    match l with
    | a :: b :: c :: d :: s :: rest =>
      if a.isDigit && b.isDigit && c.isDigit && d.isDigit && isSep s then
        (mdCore rest).map (fun md => (some [a, b, c, d], md.1, md.2))
      else none
    | _ => none
  match withYear with
  | some v => some v
  | none => (mdCore l).map (fun md => (none, md.1, md.2))

/-- Tail of `regex_mmddyyyy` after the first separator: a 1-to-2-digit
field, an optional separator, an optional 1-to-4-digit year.  After the
first digit everything is optional and nothing follows, so the greedy
choices are final. -/
def mmddAfterSep : List Char → Option (List Char × Option (List Char))
  | c1 :: r1 =>
    if c1.isDigit then
      let g2 := takeDigits 2 (c1 :: r1)
      let r2 := (c1 :: r1).drop g2.length
      let r3 := match r2 with
        | s :: r' => if isSep s then r' else r2
        | [] => r2
      let g3 : Option (List Char) :=
        match r3 with
        | c :: _ => if c.isDigit then some (takeDigits 4 r3) else none
        | [] => none
      some (g2, g3)
    else none
  | [] => none

/-- Position matcher of `regex_mmddyyyy` (two 1-to-2-digit fields and an
optional 1-to-4-digit trailing year).  The first field is greedy with
backtracking. -/
def mmddyyyyAt : List Char → Option (List Char × List Char × Option (List Char))
  | c1 :: rest =>
    if c1.isDigit then
      let two : Option (List Char × List Char × Option (List Char)) :=
        match rest with
        | c2 :: r2 =>
          if c2.isDigit then
            match r2 with
            | s :: r3 =>
              if isSep s then (mmddAfterSep r3).map (fun g => ([c1, c2], g.1, g.2))
              else none
            | [] => none
          else none
        | [] => none
      match two with
      | some v => some v
      | none =>
        match rest with
        | s :: r2 =>
          if isSep s then (mmddAfterSep r2).map (fun g => ([c1], g.1, g.2)) else none
        | [] => none
    else none
  | [] => none

/-- Exactly two digits (the trailing year of the edge-case pattern). -/
def twoDigits : List Char → Option (List Char)
  | a :: b :: _ => if a.isDigit && b.isDigit then some [a, b] else none
  | _ => none

/-- Tail `optional separator, exactly two digits`, with the greedy optional
separator falling back to the skipped alternative. -/
def optSepTwoDigits (l : List Char) : Option (List Char) :=
  let taken : Option (List Char) :=
    match l with
    | s :: r => if isSep s then twoDigits r else none
    | [] => none
  match taken with
  | some v => some v
  | none => twoDigits l

/-- Tail of `regex_american_edge_case` after the first separator: a greedy
1-to-2-digit field, an optional separator and a mandatory two-digit year,
with full backtracking across the two greedy choices. -/
def edgeAfterSep : List Char → Option (List Char × List Char)
  | c1 :: r1 =>
    if c1.isDigit then
      let two : Option (List Char × List Char) :=
        match r1 with
        | c2 :: r2 =>
          if c2.isDigit then (optSepTwoDigits r2).map (fun g3 => ([c1, c2], g3))
          else none
        | [] => none
      match two with
      | some v => some v
      | none => (optSepTwoDigits r1).map (fun g3 => ([c1], g3))
    else none
  | [] => none

/-- Position matcher of `regex_american_edge_case` (two 1-to-2-digit fields
and a mandatory two-digit year). -/
def americanEdgeAt : List Char → Option (List Char × List Char × List Char)
  | c1 :: rest =>
    if c1.isDigit then
      let two : Option (List Char × List Char × List Char) :=
        match rest with
        | c2 :: r2 =>
          if c2.isDigit then
            match r2 with
            | s :: r3 =>
              if isSep s then (edgeAfterSep r3).map (fun g => ([c1, c2], g.1, g.2))
              else none
            | [] => none
          else none
        | [] => none
      match two with
      | some v => some v
      | none =>
        match rest with
        | s :: r2 =>
          if isSep s then (edgeAfterSep r2).map (fun g => ([c1], g.1, g.2)) else none
        | [] => none
    else none
  | [] => none

/-- Longest run of word characters at the head of the list. -/
def takeWordRun : List Char → List Char × List Char
  | [] => ([], [])
  | c :: t =>
    if isWordChar c then
      let r := takeWordRun t
      (c :: r.1, r.2)
    else ([], c :: t)

/-- Exactly four digits (the year group of the named-month pattern; nothing
follows it in the pattern). -/
def fourDigits : List Char → Option (List Char)
  | a :: b :: c :: d :: _ =>
    if a.isDigit && b.isDigit && c.isDigit && d.isDigit then some [a, b, c, d]
    else none
  | _ => none

/-- The optional year tail of `regex_engdate`: an optional comma, a
mandatory space, four digits.  When the comma was consumed and the rest
fails, the backtracked alternative must match the space against the comma
and fails as well, so consuming a leading comma is safe. -/
def engYear (l : List Char) : Option (List Char) :=
  let r := match l with
    | ',' :: r' => r'
    | _ => l
  match r with
  | ' ' :: r' => fourDigits r'
  | _ => none

/-- Day-and-tail part of `regex_engdate` after the mandatory space: a greedy
1-to-2-digit day, an optional non-capturing pair of word characters (an
ordinal suffix), the optional year.  Taking the word-character pair cannot
change the captures: if it is taken, the skipped alternative would have to
match a comma or space against a word character and yields no year
either. -/
def engAfterSpace : List Char → Option (List Char × Option (List Char))
  | c1 :: r1 =>
    if c1.isDigit then
      let day := takeDigits 2 (c1 :: r1)
      let r2 := (c1 :: r1).drop day.length
      let r3 := match r2 with
        | a :: b :: r' => if isWordChar a && isWordChar b then r' else r2
        | _ => r2
      some (day, engYear r3)
    else none
  | [] => none

/-- Position matcher of `regex_engdate`: a 3-to-16 word-character name, a
space, then the day and optional year.  The name is a greedy run; a shorter
take would put a word character where the space is required, and a run
longer than 16 leaves a word character after the take, so the match at a
position succeeds exactly when the maximal run has length 3 to 16 and is
followed by a space. -/
def engdateAt (l : List Char) : Option (List Char × List Char × Option (List Char)) :=
  let run := takeWordRun l
  if 3 ≤ run.1.length ∧ run.1.length ≤ 16 then
    match run.2 with
    | ' ' :: r2 => (engAfterSpace r2).map (fun g => (run.1, g.1, g.2))
    | _ => none
  else none

/-! ## Capture handling and the parse pipeline -/

/-- The capture groups 1 to 3 of one match. -/
structure Caps where
  g1 : Option (List Char)
  g2 : Option (List Char)
  g3 : Option (List Char)

/-- `Captures::get` restricted to the three groups the code uses. -/
def Caps.get (c : Caps) : Nat → Option (List Char)
  | 1 => c.g1
  | 2 => c.g2
  | 3 => c.g3
  | _ => none

/-- `TimeParser::handle_captures`.  In Rust a missing group yields
`Ok(None)` and a failed integer parse propagates a `ParseIntError`; both are
turned into `None` by the `.unwrap_or(None)` at every call site, so they are
merged into `none` here. -/
def handle_captures (ref : RefDate) (caps : Caps) (yearIndex : Option Nat)
    (monthIndex dayIndex : Nat) (monthIsString isAmerican : Bool) : Option Nat :=
  let mi := if isAmerican && !monthIsString then dayIndex else monthIndex
  let di := if isAmerican && !monthIsString then monthIndex else dayIndex
  let monthv : Option Nat :=
    if monthIsString then (caps.get mi).map (month_from_str ref)
    else (caps.get mi).bind parseU8
  match monthv with
  | none => none
  | some m =>
    match (caps.get di).bind parseU8 with
    | none => none
    | some d =>
      let y : Int :=
        match yearIndex with
        | some i =>
          match caps.get i with
          | some yr => (parseI32 yr).getD (predict_year ref m)
          | none => predict_year ref m
        | none => predict_year ref m
      format_from_ymd (normalize_year ref y) m d

/-- `TimeParser::parse_user_expires_string`: the relative-phrase check, then
the four shapes in priority order.  Each matched shape returns the result of
its capture handling unconditionally (`return ... .unwrap_or(None)`). -/
def parse_user_expires_string (ref : RefDate) (l : List Char) : Option Nat :=
  if containsSub l "next week".data then some (next_week ref)
  else
    let isAmerican := containsSub l "am".data || containsSub l "pm".data
    match (if isAmerican then findCaptures americanEdgeAt l else none) with
    | some g => handle_captures ref ⟨some g.1, some g.2.1, some g.2.2⟩ (some 3) 1 2 false isAmerican
    | none =>
      match findCaptures yyyymmddAt l with
      | some g => handle_captures ref ⟨g.1, some g.2.1, some g.2.2⟩ (some 1) 2 3 false isAmerican
      | none =>
        match findCaptures mmddyyyyAt l with
        | some g => handle_captures ref ⟨some g.1, some g.2.1, g.2.2⟩ (some 3) 1 2 false isAmerican
        | none =>
          match findCaptures engdateAt l with
          | some g => handle_captures ref ⟨some g.1, some g.2.1, g.2.2⟩ (some 3) 1 2 true isAmerican
          | none => none

/-- `TimeParser::parse`: reject empty input, lowercase (the inputs of
interest are ASCII, where `Char.toLower` agrees with Rust's lowercasing),
resolve, and apply the safety net when enabled. -/
def parse (ref : RefDate) (ts : List Char) (safetyNet : Bool) : Option Nat :=
  if ts = [] then none
  else
    let normalized := ts.map Char.toLower
    if safetyNet then (parse_user_expires_string ref normalized).map (safety_net ref)
    else parse_user_expires_string ref normalized

/-- `validate_code`: the code without its hyphens has length 16 or 12 (the
codes of interest are ASCII, where byte length and character count agree). -/
def validate_code (code : List Char) : Bool :=
  let clen := (code.filter (fun c => c ≠ '-')).length
  clen == 16 || clen == 12

/-! ## Embedding of `src/cache.rs`

`setup` fixes `NOW` (the wall clock at startup) and
`NEXT_TTL = NOW + 60 * 60 * 24 * 7` once per run; they are threaded here as
the parameter `now`.  The `HashMap<String, u64>` is embedded as an
association list; `keys().next()` yields some key in the map's unspecified
iteration order, modelled as the key of the first stored entry. -/

def CACHE_LIMIT : Nat := 200

/-- `Cache::has`: the code is present and its stored expiry is strictly
before `NOW`. -/
def cache_has (now : Nat) (items : List (String × Nat)) (code : String) : Bool :=
  match assocLookup items code with
  | some item => decide (now > item)
  | none => false

/-- The eviction step of `Cache::insert`: remove the entry of the key
yielded by `keys().next()`. -/
def cache_evict (items : List (String × Nat)) : List (String × Nat) :=
  match items with
  | [] => []
  | e :: _ => items.filter (fun x => x.1 ≠ e.1)

/-- `Cache::insert`: evict one entry when at the limit, then store the code
with expiry `NEXT_TTL = now + 60 * 60 * 24 * 7` (replacing any previous
entry of that code, as `HashMap::insert` does). -/
def cache_insert (now : Nat) (items : List (String × Nat)) (code : String) :
    List (String × Nat) :=
  let items1 := if CACHE_LIMIT ≤ items.length then cache_evict items else items
  (code, now + 60 * 60 * 24 * 7) :: items1.filter (fun x => x.1 ≠ code)

/-- `Cache::bust`: drop every entry whose expiry is strictly before `NOW`. -/
def cache_bust (now : Nat) (items : List (String × Nat)) : List (String × Nat) :=
  items.filter (fun x => decide (now ≤ x.2))

/-- The cache operations available after setup within one run: inserts of
arbitrary codes and `bust` (reads do not change the state). -/
inductive CacheStep (now : Nat) : List (String × Nat) → List (String × Nat) → Prop
  | insert (items : List (String × Nat)) (code : String) :
      CacheStep now items (cache_insert now items code)
  | bust (items : List (String × Nat)) :
      CacheStep now items (cache_bust now items)

/-- Reachability by any sequence of cache operations within one run. -/
inductive CacheReach (now : Nat) : List (String × Nat) → List (String × Nat) → Prop
  | refl (items : List (String × Nat)) : CacheReach now items items
  | step {a b c : List (String × Nat)} :
      CacheReach now a b → CacheStep now b c → CacheReach now a c

/-! ## Embedding of the Discord handler (`src/handler/discord.rs`)

Only the steps that bear on the claims are modelled: the message is split on
newlines, a message of fewer than three lines and an invalid code are
rejected, and the expiry is resolved from the fifth line with the
per-message fallback.  The creator-name munging between those steps
influences neither the code nor the expiry and is omitted from the result. -/

/-- Rust `str::split('\n')` (keeps empty pieces; an empty string yields one
empty piece). -/
def splitNl : List Char → List (List Char)
  | [] => [[]]
  | c :: t =>
    let r := splitNl t
    if c = '\n' then [] :: r
    else
      match r with
      | h :: t' => (c :: h) :: t'
      | [] => [[c]]

/-- The Discord handler's `parse`, reduced to the cleaned code and the
resolved expiry.  The expiry comes from the fifth line: an absent line means
`next_week()`, and a line the resolver cannot handle falls back to
`message_ts + (60 * 24 * 7)` (the code's literal fallback expression, in
seconds). -/
def discord_parse (ref : RefDate) (message : List Char) (messageTs : Nat) :
    Option (List Char × Nat) :=
  let parts := splitNl message
  if parts.length < 3 then none
  else
    let code := (parts.headD []).filter (fun c => c ≠ ' ')
    if validate_code code then
      let expiresAt :=
        match parts[4]? with
        | none => next_week ref
        | some txt => (parse ref txt true).getD (messageTs + 60 * 24 * 7)
      some (code, expiresAt)
    else none

/-! ## Auxiliary definitions for the claim statements -/

/-- A physically possible reference instant: on or after the epoch and
within the date range the `time` crate supports (bounded well below the
year 9999, so that the `as u64` cast in `next_week` is the identity). -/
def RefDate.Sane (ref : RefDate) : Prop :=
  0 ≤ ref.days ∧ ref.days ≤ 3000000

/-- The synthesized round-trip input of §8 of the spec:
`<month-name> <day>, <4-digit year>`. -/
def synthInput (nm : List Char) (d y : Nat) : List Char :=
  nm ++ ' ' :: (natDigits d ++ ',' :: ' ' :: natDigits y)

/-- The decidable per-name facts the round-trip proof uses about every
recognized month name: word characters that are neither digits, separators,
the letter of the relative-phrase test, nor changed by lowercasing; a
length the name pattern accepts; and no am/pm substring. -/
def monthNameOk (nm : List Char) : Bool :=
  nm.all (fun c => c.isAlpha && !c.isDigit && !isSep c && c ≠ 'w' && c.toLower == c) &&
    decide (3 ≤ nm.length) && decide (nm.length ≤ 16) &&
    !containsSub nm ['a', 'm'] && !containsSub nm ['p', 'm']

/-! # Helper lemmas -/

theorem parse_user_nil (ref : RefDate) : parse_user_expires_string ref [] = none := rfl

theorem assocLookup_mem {α β : Type} [DecidableEq α] {l : List (α × β)} {k : α} {v : β}
    (h : assocLookup l k = some v) : (k, v) ∈ l := by
  induction l with
  | nil => exact Option.noConfusion h
  | cons e t ih =>
    unfold assocLookup at h
    by_cases hk : e.1 = k
    · rw [if_pos hk] at h
      have hv : e.2 = v := Option.some.inj h
      have he : e = (k, v) := Prod.ext hk hv
      rw [← he]
      exact List.mem_cons_self e t
    · rw [if_neg hk] at h
      exact List.mem_cons_of_mem _ (ih h)

theorem cache_good_insert (now : Nat) (items : List (String × Nat)) (code : String) :
    ∀ e ∈ cache_insert now items code, e.1 = code → now ≤ e.2 := by
  intro e he hcode
  simp only [cache_insert] at he
  rcases List.mem_cons.mp he with rfl | he2
  · show now ≤ now + 60 * 60 * 24 * 7
    omega
  · exact absurd hcode (by simpa using (List.mem_filter.mp he2).2)

theorem cache_good_step {now : Nat} {a b : List (String × Nat)} {code : String}
    (hs : CacheStep now a b) (ha : ∀ e ∈ a, e.1 = code → now ≤ e.2) :
    ∀ e ∈ b, e.1 = code → now ≤ e.2 := by
  cases hs with
  | insert c' =>
    intro e he hcode
    simp only [cache_insert] at he
    rcases List.mem_cons.mp he with rfl | he2
    · show now ≤ now + 60 * 60 * 24 * 7
      omega
    · have he3 := (List.mem_filter.mp he2).1
      have he4 : e ∈ a := by
        by_cases hlim : CACHE_LIMIT ≤ a.length
        · rw [if_pos hlim] at he3
          unfold cache_evict at he3
          cases a with
          | nil => simp at he3
          | cons e0 t => exact (List.mem_filter.mp he3).1
        · rwa [if_neg hlim] at he3
      exact ha e he4 hcode
  | bust =>
    intro e he hcode
    exact ha e (List.mem_filter.mp he).1 hcode

theorem cache_good_reach {now : Nat} {a b : List (String × Nat)} {code : String}
    (hr : CacheReach now a b) (ha : ∀ e ∈ a, e.1 = code → now ≤ e.2) :
    ∀ e ∈ b, e.1 = code → now ≤ e.2 := by
  induction hr with
  | refl => exact ha
  | step _ hs ih => exact cache_good_step hs ih

theorem date_to_unix_dvd {y : Int} {m d : Nat} {t : Nat}
    (h : date_to_unix y m d = some t) : 86400 ∣ t := by
  have h' : (if civilDays y m d * 86400 < 0 then none
             else some (civilDays y m d * 86400).toNat) = some t := h
  split at h'
  · exact Option.noConfusion h'
  · have ht : (civilDays y m d * 86400).toNat = t := Option.some.inj h'
    exact ⟨(civilDays y m d).toNat, by omega⟩

theorem format_from_ymd_dvd {y : Int} {m d t : Nat}
    (h : format_from_ymd y m d = some t) : 86400 ∣ t := by
  simp only [format_from_ymd] at h
  repeat' split at h
  any_goals exact Option.noConfusion h
  all_goals exact date_to_unix_dvd h

theorem handle_captures_dvd {ref : RefDate} {caps : Caps} {yi : Option Nat}
    {mi di : Nat} {ms ia : Bool} {t : Nat}
    (h : handle_captures ref caps yi mi di ms ia = some t) : 86400 ∣ t := by
  simp only [handle_captures] at h
  repeat' split at h
  any_goals exact Option.noConfusion h
  all_goals exact format_from_ymd_dvd h

theorem next_week_sane {ref : RefDate} (h : ref.Sane) :
    next_week ref = ((ref.days + 7) * 86400).toNat ∧ 86400 ∣ next_week ref := by
  obtain ⟨h1, h2⟩ := h
  unfold next_week intToU64
  have epow : (2 : Int) ^ 64 = 18446744073709551616 := by norm_num
  rw [epow]
  have e1 : 0 ≤ (ref.days + 7) * 86400 := by omega
  have e2 : (ref.days + 7) * 86400 < 18446744073709551616 := by omega
  rw [Int.emod_eq_of_lt e1 e2]
  exact ⟨rfl, ⟨(ref.days + 7).toNat, by omega⟩⟩

theorem parse_user_dvd {ref : RefDate} {l : List Char} {u : Nat}
    (hnw : 86400 ∣ next_week ref)
    (hu : parse_user_expires_string ref l = some u) : 86400 ∣ u := by
  unfold parse_user_expires_string at hu
  split at hu
  · exact (Option.some.inj hu) ▸ hnw
  · dsimp only [] at hu
    repeat' split at hu
    any_goals exact Option.noConfusion hu
    all_goals exact handle_captures_dvd hu

theorem digitChar_isDigit {n : Nat} (h : n < 10) : (digitChar n).isDigit = true := by
  interval_cases n <;> decide

theorem digitChar_toNat {n : Nat} (h : n < 10) : (digitChar n).toNat = 48 + n := by
  interval_cases n <;> decide

theorem digitChar_toLower {n : Nat} (h : n < 10) : (digitChar n).toLower = digitChar n := by
  interval_cases n <;> decide

theorem natDigits_small {n : Nat} (h : n < 10) : natDigits n = [digitChar n] := by
  unfold natDigits
  rw [dif_pos h]

theorem natDigits_step {n : Nat} (h : 10 ≤ n) :
    natDigits n = natDigits (n / 10) ++ [digitChar (n % 10)] := by
  conv_lhs => unfold natDigits
  rw [dif_neg (by omega)]

theorem natDigits_ne_nil (n : Nat) : natDigits n ≠ [] := by
  by_cases h : n < 10
  · rw [natDigits_small h]
    simp
  · rw [natDigits_step (by omega)]
    simp

theorem natDigits_all_digit (n : Nat) : ∀ c ∈ natDigits n, c.isDigit = true := by
  induction n using Nat.strong_induction_on with
  | _ n ih =>
    by_cases h : n < 10
    · rw [natDigits_small h]
      intro c hc
      rw [List.mem_singleton.mp hc]
      exact digitChar_isDigit h
    · rw [natDigits_step (by omega)]
      intro c hc
      rcases List.mem_append.mp hc with h1 | h2
      · exact ih (n / 10) (Nat.div_lt_self (by omega) (by omega)) c h1
      · rw [List.mem_singleton.mp h2]
        exact digitChar_isDigit (Nat.mod_lt _ (by omega))

theorem natDigits_toLower (n : Nat) : ∀ c ∈ natDigits n, c.toLower = c := by
  induction n using Nat.strong_induction_on with
  | _ n ih =>
    by_cases h : n < 10
    · rw [natDigits_small h]
      intro c hc
      rw [List.mem_singleton.mp hc]
      exact digitChar_toLower h
    · rw [natDigits_step (by omega)]
      intro c hc
      rcases List.mem_append.mp hc with h1 | h2
      · exact ih (n / 10) (Nat.div_lt_self (by omega) (by omega)) c h1
      · rw [List.mem_singleton.mp h2]
        exact digitChar_toLower (Nat.mod_lt _ (by omega))

theorem listVal_append_singleton (l : List Char) (c : Char) :
    listVal (l ++ [c]) = 10 * listVal l + (c.toNat - 48) := by
  unfold listVal
  rw [List.foldl_append]
  rfl

theorem listVal_natDigits (n : Nat) : listVal (natDigits n) = n := by
  induction n using Nat.strong_induction_on with
  | _ n ih =>
    by_cases h : n < 10
    · rw [natDigits_small h]
      show 10 * 0 + ((digitChar n).toNat - 48) = n
      rw [digitChar_toNat h]
      omega
    · rw [natDigits_step (by omega), listVal_append_singleton,
        ih (n / 10) (Nat.div_lt_self (by omega) (by omega)),
        digitChar_toNat (Nat.mod_lt _ (by omega))]
      omega

theorem natDigits_len_le2 {n : Nat} (h : n < 100) :
    natDigits n = [digitChar n] ∨
      natDigits n = [digitChar (n / 10), digitChar (n % 10)] := by
  by_cases h1 : n < 10
  · exact Or.inl (natDigits_small h1)
  · refine Or.inr ?_
    rw [natDigits_step (by omega), natDigits_small (by omega)]
    rfl

theorem exists_four {l : List Char} (h : l.length = 4) : ∃ a b c d, l = [a, b, c, d] := by
  rcases l with _ | ⟨a, _ | ⟨b, _ | ⟨c, _ | ⟨d, _ | ⟨e, t⟩⟩⟩⟩⟩
  · simp at h
  · simp at h
  · simp at h
  · simp at h
  · exact ⟨a, b, c, d, rfl⟩
  · simp at h

theorem natDigits_length4 {n : Nat} (h1 : 1000 ≤ n) (h2 : n ≤ 9999) :
    (natDigits n).length = 4 := by
  rw [natDigits_step (by omega), natDigits_step (by omega), natDigits_step (by omega),
    natDigits_small (by omega)]
  simp

theorem listPrefixOf_mem {nd l : List Char} (h : listPrefixOf nd l = true) :
    ∀ c ∈ nd, c ∈ l := by
  induction nd generalizing l with
  | nil => simp
  | cons a as ih =>
    cases l with
    | nil => exact absurd h (by simp [listPrefixOf])
    | cons b bs =>
      unfold listPrefixOf at h
      rw [Bool.and_eq_true] at h
      obtain ⟨h1, h2⟩ := h
      have hab : a = b := by simpa using h1
      intro c hc
      rcases List.mem_cons.mp hc with rfl | hc2
      · rw [hab]
        exact List.mem_cons_self b bs
      · exact List.mem_cons_of_mem _ (ih h2 c hc2)

theorem containsSub_mem {l nd : List Char} (h : containsSub l nd = true) :
    ∀ c ∈ nd, c ∈ l := by
  induction l with
  | nil =>
    unfold containsSub at h
    exact listPrefixOf_mem (by simpa using h)
  | cons b bs ih =>
    unfold containsSub at h
    rw [Bool.or_eq_true] at h
    rcases h with h1 | h2
    · exact listPrefixOf_mem h1
    · intro c hc
      exact List.mem_cons_of_mem _ (ih h2 c hc)

theorem containsSub_pair_append_false {xs ys : List Char} {x y : Char}
    (hxs : containsSub xs [x, y] = false)
    (hys : containsSub ys [x, y] = false)
    (hhd : ∀ hd, ys.head? = some hd → hd ≠ y) :
    containsSub (xs ++ ys) [x, y] = false := by
  induction xs with
  | nil => simpa using hys
  | cons a t ih =>
    have hsplit := Bool.or_eq_false_iff.mp (by simpa [containsSub] using hxs)
    have ih' := ih hsplit.2
    show containsSub (a :: (t ++ ys)) [x, y] = false
    unfold containsSub
    rw [Bool.or_eq_false_iff]
    refine ⟨?_, ih'⟩
    cases hp : listPrefixOf [x, y] (a :: (t ++ ys)) with
    | false => rfl
    | true =>
      exfalso
      unfold listPrefixOf at hp
      rw [Bool.and_eq_true] at hp
      obtain ⟨hax, hrest⟩ := hp
      cases t with
      | nil =>
        rw [List.nil_append] at hrest
        cases ys with
        | nil => simp [listPrefixOf] at hrest
        | cons b bs =>
          unfold listPrefixOf at hrest
          rw [Bool.and_eq_true] at hrest
          obtain ⟨hyb, _⟩ := hrest
          have hyb' : y = b := by simpa using hyb
          exact hhd b rfl hyb'.symm
      | cons b bs =>
        have hpre : listPrefixOf [x, y] (a :: b :: bs) = true := by
          have hrest' : ((y == b) && listPrefixOf [] (bs ++ ys)) = true := hrest
          rw [Bool.and_eq_true] at hrest'
          simp [listPrefixOf, hax, hrest'.1]
        rw [hsplit.1] at hpre
        exact Bool.noConfusion hpre

theorem takeWordRun_append {nm rest : List Char} (h : ∀ c ∈ nm, isWordChar c = true) :
    takeWordRun (nm ++ ' ' :: rest) = (nm, ' ' :: rest) := by
  induction nm with
  | nil =>
    show takeWordRun (' ' :: rest) = ([], ' ' :: rest)
    unfold takeWordRun
    rw [show isWordChar ' ' = false from rfl]
    rfl
  | cons a t ih =>
    show takeWordRun (a :: (t ++ ' ' :: rest)) = (a :: t, ' ' :: rest)
    unfold takeWordRun
    rw [h a (List.mem_cons_self a t), ih fun c hc => h c (List.mem_cons_of_mem _ hc)]
    rfl

theorem sepThenDigits12_none {l : List Char} (h : ∀ c ∈ l, isSep c = false) :
    sepThenDigits12 l = none := by
  cases l with
  | nil => rfl
  | cons s r =>
    show (if isSep s = true then digits12 r else none) = none
    rw [h s (List.mem_cons_self s r)]
    rfl

theorem mdCore_none {l : List Char} (h : ∀ c ∈ l, isSep c = false) : mdCore l = none := by
  cases l with
  | nil => rfl
  | cons c1 rest =>
    unfold mdCore
    have hr : ∀ c ∈ rest, isSep c = false := fun c hc => h c (List.mem_cons_of_mem _ hc)
    cases h1 : c1.isDigit with
    | false => simp [h1]
    | true =>
      have h2 : sepThenDigits12 rest = none := sepThenDigits12_none hr
      cases rest with
      | nil => simp [h1, h2]
      | cons c2 r2 =>
        have h3 : sepThenDigits12 r2 = none :=
          sepThenDigits12_none fun c hc => hr c (List.mem_cons_of_mem _ hc)
        cases hc2 : c2.isDigit <;> simp [h1, hc2, h2, h3]

theorem yyyymmddAt_none {l : List Char} (h : ∀ c ∈ l, isSep c = false) :
    yyyymmddAt l = none := by
  have hmd : mdCore l = none := mdCore_none h
  rcases l with _ | ⟨a, _ | ⟨b, _ | ⟨c, _ | ⟨d, _ | ⟨s, rest⟩⟩⟩⟩⟩
  · unfold yyyymmddAt
    simp [hmd]
  · unfold yyyymmddAt
    simp [hmd]
  · unfold yyyymmddAt
    simp [hmd]
  · unfold yyyymmddAt
    simp [hmd]
  · unfold yyyymmddAt
    simp [hmd]
  · unfold yyyymmddAt
    have hs : isSep s = false := h s (by simp)
    simp [hs, hmd]

theorem mmddyyyyAt_none {l : List Char} (h : ∀ c ∈ l, isSep c = false) :
    mmddyyyyAt l = none := by
  cases l with
  | nil => rfl
  | cons c1 rest =>
    unfold mmddyyyyAt
    cases h1 : c1.isDigit with
    | false => simp [h1]
    | true =>
      cases rest with
      | nil => simp [h1]
      | cons c2 r2 =>
        have hs2 : isSep c2 = false := h c2 (by simp)
        cases r2 with
        | nil => cases hc2 : c2.isDigit <;> simp [h1, hc2, hs2]
        | cons s r3 =>
          have hs3 : isSep s = false := h s (by simp)
          cases hc2 : c2.isDigit <;> simp [h1, hc2, hs2, hs3]

theorem americanEdgeAt_none {l : List Char} (h : ∀ c ∈ l, isSep c = false) :
    americanEdgeAt l = none := by
  cases l with
  | nil => rfl
  | cons c1 rest =>
    unfold americanEdgeAt
    cases h1 : c1.isDigit with
    | false => simp [h1]
    | true =>
      cases rest with
      | nil => simp [h1]
      | cons c2 r2 =>
        have hs2 : isSep c2 = false := h c2 (by simp)
        cases r2 with
        | nil => cases hc2 : c2.isDigit <;> simp [h1, hc2, hs2]
        | cons s r3 =>
          have hs3 : isSep s = false := h s (by simp)
          cases hc2 : c2.isDigit <;> simp [h1, hc2, hs2, hs3]

theorem findCaptures_none {α : Type} {f : List Char → Option α}
    (hf : ∀ l', (∀ c ∈ l', isSep c = false) → f l' = none)
    {l : List Char} (h : ∀ c ∈ l, isSep c = false) : findCaptures f l = none := by
  induction l with
  | nil => exact hf [] h
  | cons a t ih =>
    unfold findCaptures
    rw [hf _ h]
    exact ih fun c hc => h c (List.mem_cons_of_mem _ hc)

theorem findCaptures_head {α : Type} {f : List Char → Option α} {l : List Char} {v : α}
    (h : f l = some v) : findCaptures f l = some v := by
  cases l with
  | nil => exact h
  | cons a t =>
    unfold findCaptures
    rw [h]

theorem engYear_synth {yd : List Char} (hlen : yd.length = 4)
    (hdig : ∀ c ∈ yd, c.isDigit = true) :
    engYear (',' :: ' ' :: yd) = some yd := by
  obtain ⟨a, b, c, d, rfl⟩ := exists_four hlen
  have ha := hdig a (by simp)
  have hb := hdig b (by simp)
  have hc := hdig c (by simp)
  have hd := hdig d (by simp)
  simp [engYear, fourDigits, ha, hb, hc, hd]

theorem engAfterSpace_synth {dd yd : List Char}
    (hddne : dd ≠ []) (hddlen : dd.length ≤ 2) (hdddig : ∀ c ∈ dd, c.isDigit = true)
    (hylen : yd.length = 4) (hydig : ∀ c ∈ yd, c.isDigit = true) :
    engAfterSpace (dd ++ ',' :: ' ' :: yd) = some (dd, some yd) := by
  have hyr := engYear_synth hylen hydig
  have hcd : (',' : Char).isDigit = false := by decide
  have hcw : isWordChar ',' = false := by decide
  rcases dd with _ | ⟨c1, _ | ⟨c2, _ | ⟨c3, t⟩⟩⟩
  · exact absurd rfl hddne
  · have h1 : c1.isDigit = true := hdddig c1 (by simp)
    show engAfterSpace (c1 :: ',' :: ' ' :: yd) = some ([c1], some yd)
    unfold engAfterSpace
    simp [takeDigits, h1, hcd, hcw, hyr]
  · have h1 : c1.isDigit = true := hdddig c1 (by simp)
    have h2 : c2.isDigit = true := hdddig c2 (by simp)
    show engAfterSpace (c1 :: c2 :: ',' :: ' ' :: yd) = some ([c1, c2], some yd)
    unfold engAfterSpace
    simp [takeDigits, h1, h2, hcd, hcw, hyr]
  · simp at hddlen

theorem engdateAt_synth {nm dd yd : List Char}
    (hword : ∀ c ∈ nm, isWordChar c = true)
    (hlen3 : 3 ≤ nm.length) (hlen16 : nm.length ≤ 16)
    (hafter : engAfterSpace (dd ++ ',' :: ' ' :: yd) = some (dd, some yd)) :
    engdateAt (nm ++ ' ' :: (dd ++ ',' :: ' ' :: yd)) = some (nm, dd, some yd) := by
  unfold engdateAt
  rw [takeWordRun_append hword,
    if_pos (show 3 ≤ nm.length ∧ nm.length ≤ 16 from ⟨hlen3, hlen16⟩)]
  show (engAfterSpace (dd ++ ',' :: ' ' :: yd)).map (fun g => (nm, g.1, g.2)) =
    some (nm, dd, some yd)
  rw [hafter]
  rfl

theorem synth_tail_mem {dd yd : List Char}
    (hdd : ∀ c ∈ dd, c.isDigit = true) (hyd : ∀ c ∈ yd, c.isDigit = true) :
    ∀ c ∈ (' ' :: (dd ++ ',' :: ' ' :: yd)), c = ' ' ∨ c = ',' ∨ c.isDigit = true := by
  intro c hc
  rcases List.mem_cons.mp hc with rfl | hc2
  · exact Or.inl rfl
  rcases List.mem_append.mp hc2 with h1 | h2
  · exact Or.inr (Or.inr (hdd c h1))
  rcases List.mem_cons.mp h2 with rfl | h3
  · exact Or.inr (Or.inl rfl)
  rcases List.mem_cons.mp h3 with rfl | h4
  · exact Or.inl rfl
  · exact Or.inr (Or.inr (hyd c h4))

theorem synth_tail_no_pair {dd yd : List Char} {x : Char}
    (hdd : ∀ c ∈ dd, c.isDigit = true) (hyd : ∀ c ∈ yd, c.isDigit = true)
    (hx1 : x ≠ ' ') (hx2 : x ≠ ',') (hx3 : x.isDigit = false) (y : Char) :
    containsSub (' ' :: (dd ++ ',' :: ' ' :: yd)) [x, y] = false := by
  cases hcp : containsSub (' ' :: (dd ++ ',' :: ' ' :: yd)) [x, y] with
  | false => rfl
  | true =>
    exfalso
    have hxmem := containsSub_mem hcp x (by simp)
    rcases synth_tail_mem hdd hyd x hxmem with h | h | h
    · exact hx1 h
    · exact hx2 h
    · rw [h] at hx3
      exact Bool.noConfusion hx3

theorem synth_no_pair {nm dd yd : List Char} {x y : Char}
    (hnm : containsSub nm [x, y] = false)
    (hdd : ∀ c ∈ dd, c.isDigit = true) (hyd : ∀ c ∈ yd, c.isDigit = true)
    (hx1 : x ≠ ' ') (hx2 : x ≠ ',') (hx3 : x.isDigit = false) (hy : y ≠ ' ') :
    containsSub (nm ++ ' ' :: (dd ++ ',' :: ' ' :: yd)) [x, y] = false := by
  refine containsSub_pair_append_false hnm (synth_tail_no_pair hdd hyd hx1 hx2 hx3 y) ?_
  intro hd hhd
  have hsp : ' ' = hd := by simpa using hhd
  rw [← hsp]
  exact fun he => hy he.symm

theorem map_toLower_fix {l : List Char} (h : ∀ c ∈ l, c.toLower = c) :
    l.map Char.toLower = l := by
  induction l with
  | nil => rfl
  | cons a t ih =>
    rw [List.map_cons, h a (List.mem_cons_self a t),
      ih fun c hc => h c (List.mem_cons_of_mem _ hc)]

theorem synth_map_toLower {nm : List Char} {d y : Nat}
    (h : ∀ c ∈ nm, c.toLower = c) :
    (synthInput nm d y).map Char.toLower = synthInput nm d y := by
  apply map_toLower_fix
  intro c hc
  unfold synthInput at hc
  rcases List.mem_append.mp hc with h1 | h2
  · exact h c h1
  rcases List.mem_cons.mp h2 with rfl | h3
  · decide
  rcases List.mem_append.mp h3 with h4 | h5
  · exact natDigits_toLower d c h4
  rcases List.mem_cons.mp h5 with rfl | h6
  · decide
  rcases List.mem_cons.mp h6 with rfl | h7
  · decide
  · exact natDigits_toLower y c h7

theorem isWordChar_of_alpha {c : Char} (h : c.isAlpha = true) : isWordChar c = true := by
  simp [isWordChar, Char.isAlphanum, h]

theorem monthNameOk_unpack {nm : List Char} (h : monthNameOk nm = true) :
    (∀ c ∈ nm, c.isAlpha = true ∧ c.isDigit = false ∧ isSep c = false ∧ c ≠ 'w' ∧
      c.toLower = c) ∧
    3 ≤ nm.length ∧ nm.length ≤ 16 ∧
    containsSub nm ['a', 'm'] = false ∧ containsSub nm ['p', 'm'] = false := by
  unfold monthNameOk at h
  simp only [Bool.and_eq_true, List.all_eq_true, decide_eq_true_eq, Bool.not_eq_true',
    beq_iff_eq] at h
  obtain ⟨⟨⟨⟨hall, hl3⟩, hl16⟩, ham⟩, hpm⟩ := h
  refine ⟨?_, hl3, hl16, ham, hpm⟩
  intro c hc
  have hcₓ := hall c hc
  simp only [Bool.and_eq_true, Bool.not_eq_true', decide_eq_true_eq, beq_iff_eq] at hcₓ
  exact ⟨hcₓ.1.1.1.1, hcₓ.1.1.1.2, hcₓ.1.1.2, hcₓ.1.2, hcₓ.2⟩

theorem monthTable_ok : ∀ e ∈ monthTable, monthNameOk e.1 = true ∧
    assocLookup monthTable e.1 = some e.2 ∧ 1 ≤ e.2 ∧ e.2 ≤ 12 := by
  decide

theorem daysInMonth_ge {y : Int} {m : Nat} : 28 ≤ daysInMonth y m := by
  unfold daysInMonth
  split_ifs <;> omega

theorem civilDays_nonneg {y : Int} {m d : Nat} (hy : 1970 ≤ y) (hm1 : 1 ≤ m)
    (hm2 : m ≤ 12) (hd : 1 ≤ d) : 0 ≤ civilDays y m d := by
  interval_cases m <;> simp only [civilDays] <;> split_ifs <;> omega

theorem parseU8_natDigits {d : Nat} (h : d ≤ 255) : parseU8 (natDigits d) = some d := by
  unfold parseU8
  rw [if_pos, listVal_natDigits]
  refine ⟨natDigits_ne_nil d, ?_, ?_⟩
  · rw [List.all_eq_true]
    exact natDigits_all_digit d
  · rw [listVal_natDigits]
    exact h

theorem parseI32_natDigits {y : Nat} (h : y ≤ 2147483647) :
    parseI32 (natDigits y) = some (y : Int) := by
  unfold parseI32
  rw [if_pos, listVal_natDigits]
  refine ⟨natDigits_ne_nil y, ?_, ?_⟩
  · rw [List.all_eq_true]
    exact natDigits_all_digit y
  · rw [listVal_natDigits]
    exact h

theorem parse_user_unfold (ref : RefDate) (l : List Char)
    (hnw : containsSub l "next week".data = false) :
    parse_user_expires_string ref l =
      match (if (containsSub l "am".data || containsSub l "pm".data) then
               findCaptures americanEdgeAt l else none) with
      | some g => handle_captures ref ⟨some g.1, some g.2.1, some g.2.2⟩ (some 3) 1 2 false
          (containsSub l "am".data || containsSub l "pm".data)
      | none =>
        match findCaptures yyyymmddAt l with
        | some g => handle_captures ref ⟨g.1, some g.2.1, some g.2.2⟩ (some 1) 2 3 false
            (containsSub l "am".data || containsSub l "pm".data)
        | none =>
          match findCaptures mmddyyyyAt l with
          | some g => handle_captures ref ⟨some g.1, some g.2.1, g.2.2⟩ (some 3) 1 2 false
              (containsSub l "am".data || containsSub l "pm".data)
          | none =>
            match findCaptures engdateAt l with
            | some g => handle_captures ref ⟨some g.1, some g.2.1, g.2.2⟩ (some 3) 1 2 true
                (containsSub l "am".data || containsSub l "pm".data)
            | none => none := by
  unfold parse_user_expires_string
  rw [hnw]
  exact rfl

theorem c5_core (ref : RefDate) (nm : List Char) (mi d y : Nat)
    (hok : monthNameOk nm = true)
    (hlook : assocLookup monthTable nm = some mi)
    (hmi1 : 1 ≤ mi) (hmi2 : mi ≤ 12)
    (hd1 : 1 ≤ d) (hd2 : d ≤ 28)
    (hy1 : 1970 ≤ y) (hy2 : y ≤ 9999)
    (hwin : ref.year - 1 ≤ (y : Int)) :
    parse ref (synthInput nm d y) false = some ((civilDays (y : Int) mi d * 86400).toNat) ∧
    date_to_unix (y : Int) mi d = some ((civilDays (y : Int) mi d * 86400).toNat) := by
  obtain ⟨hchars, hl3, hl16, ham, hpm⟩ := monthNameOk_unpack hok
  have hdd_dig : ∀ c ∈ natDigits d, c.isDigit = true := natDigits_all_digit d
  have hyd_dig : ∀ c ∈ natDigits y, c.isDigit = true := natDigits_all_digit y
  have hdd_ne : natDigits d ≠ [] := natDigits_ne_nil d
  have hdd_len : (natDigits d).length ≤ 2 := by
    rcases natDigits_len_le2 (show d < 100 by omega) with h | h <;> rw [h] <;> simp
  have hyd_len : (natDigits y).length = 4 := natDigits_length4 (by omega) hy2
  have hne : synthInput nm d y ≠ [] := by
    unfold synthInput
    intro hnil
    rcases nm with _ | ⟨a, t⟩
    · simp at hl3
    · simp at hnil
  have hcvd : 0 ≤ civilDays (y : Int) mi d :=
    civilDays_nonneg (by exact_mod_cast hy1) hmi1 hmi2 hd1
  have hdtu : date_to_unix (y : Int) mi d = some ((civilDays (y : Int) mi d * 86400).toNat) := by
    unfold date_to_unix
    rw [if_neg (by omega)]
  refine ⟨?_, hdtu⟩
  have hmap : (synthInput nm d y).map Char.toLower = synthInput nm d y :=
    synth_map_toLower fun c hc => (hchars c hc).2.2.2.2
  have hnw : containsSub (synthInput nm d y) "next week".data = false := by
    cases hcp : containsSub (synthInput nm d y) "next week".data with
    | false => rfl
    | true =>
      exfalso
      have hwmem : 'w' ∈ synthInput nm d y := containsSub_mem hcp 'w' (by decide)
      unfold synthInput at hwmem
      rcases List.mem_append.mp hwmem with h1 | h2
      · exact (hchars _ h1).2.2.2.1 rfl
      · rcases synth_tail_mem hdd_dig hyd_dig 'w' h2 with h | h | h
        · exact absurd h (by decide)
        · exact absurd h (by decide)
        · exact absurd h (by decide)
  have hamf : containsSub (synthInput nm d y) "am".data = false :=
    synth_no_pair ham hdd_dig hyd_dig (by decide) (by decide) (by decide) (by decide)
  have hpmf : containsSub (synthInput nm d y) "pm".data = false :=
    synth_no_pair hpm hdd_dig hyd_dig (by decide) (by decide) (by decide) (by decide)
  have hsep : ∀ c ∈ synthInput nm d y, isSep c = false := by
    intro c hc
    unfold synthInput at hc
    rcases List.mem_append.mp hc with h1 | h2
    · exact (hchars c h1).2.2.1
    · rcases synth_tail_mem hdd_dig hyd_dig c h2 with h | h | h
      · rw [h]
        decide
      · rw [h]
        decide
      · cases hcs : isSep c with
        | false => rfl
        | true =>
          exfalso
          have hcor : c = '/' ∨ c = '-' := by simpa [isSep] using hcs
          rcases hcor with rfl | rfl <;> exact absurd h (by decide)
  have hafter := engAfterSpace_synth hdd_ne hdd_len hdd_dig hyd_len hyd_dig
  have hword : ∀ c ∈ nm, isWordChar c = true := fun c hc => isWordChar_of_alpha (hchars c hc).1
  have heng : findCaptures engdateAt (synthInput nm d y) =
      some (nm, natDigits d, some (natDigits y)) :=
    findCaptures_head (engdateAt_synth hword hl3 hl16 hafter)
  have hyy : findCaptures yyyymmddAt (synthInput nm d y) = none :=
    findCaptures_none (fun l' h' => yyyymmddAt_none h') hsep
  have hmd2 : findCaptures mmddyyyyAt (synthInput nm d y) = none :=
    findCaptures_none (fun l' h' => mmddyyyyAt_none h') hsep
  -- capture handling on the named-month shape
  have hmstr : month_from_str ref nm = mi := by
    unfold month_from_str
    rw [hlook]
  have hpd : parseU8 (natDigits d) = some d := parseU8_natDigits (by omega)
  have hpy : parseI32 (natDigits y) = some (y : Int) := parseI32_natDigits (by omega)
  have hny : normalize_year ref (y : Int) = (y : Int) := by
    show (if ref.year - 1 > (if (y : Int) < 1000 then (y : Int) + 2000 else (y : Int)) then ref.year
          else (if (y : Int) < 1000 then (y : Int) + 2000 else (y : Int))) = (y : Int)
    rw [if_neg (show ¬((y : Int) < 1000) by omega)]
    rw [if_neg (show ¬(ref.year - 1 > (y : Int)) by omega)]
  have h28 : 28 ≤ daysInMonth (y : Int) mi := daysInMonth_ge
  have hcal : calendarDateOk (y : Int) mi d = true := by
    unfold calendarDateOk
    simp only [Bool.and_eq_true, decide_eq_true_eq]
    refine ⟨⟨⟨?_, ?_⟩, ?_⟩, ?_⟩ <;> omega
  have hfmt : format_from_ymd (y : Int) mi d = some ((civilDays (y : Int) mi d * 86400).toNat) := by
    simp only [format_from_ymd]
    rw [if_neg (show ¬(mi > 12 ∧ d ≤ 12) by omega)]
    rw [if_pos (show 1 ≤ (mi, d).1 ∧ (mi, d).1 ≤ 12 from ⟨hmi1, hmi2⟩)]
    rw [if_pos hcal]
    exact hdtu
  have hhandle : handle_captures ref ⟨some nm, some (natDigits d), some (natDigits y)⟩
      (some 3) 1 2 true false = some ((civilDays (y : Int) mi d * 86400).toNat) := by
    simp only [handle_captures, Caps.get, Option.map_some', Option.some_bind, hmstr, hpd, hpy,
      Option.getD_some, hny]
    simp only [Bool.and_false, Bool.false_and, Bool.and_true, Bool.not_true, if_neg]
    simp [hpd, hmstr, hny, hfmt]
  -- assemble the full parse
  have hparse : parse ref (synthInput nm d y) false =
      parse_user_expires_string ref ((synthInput nm d y).map Char.toLower) := by
    unfold parse
    rw [if_neg hne]
    exact rfl
  rw [hparse, hmap, parse_user_unfold ref _ hnw, hamf, hpmf]
  rw [show (if (false || false : Bool) then
        findCaptures americanEdgeAt (synthInput nm d y) else none) = none from rfl]
  rw [hyy, hmd2, heng]
  exact hhandle

/-! # Claim theorems -/

/-- C5: for every recognized English month name (with month number taken
from the recognition table), every day in 1..28 and every four-digit year
within one year of the current (reference) year — and on or after 1970, as
the year of any real reference clock is — parsing the synthesized text
`<month-name> <day>, <year>` succeeds and returns the seconds-since-epoch
value of UTC midnight on that calendar date. -/
theorem c5_round_trip (ref : RefDate) (entry : List Char × Nat) (d y : Nat)
    (hmem : entry ∈ monthTable)
    (hd1 : 1 ≤ d) (hd2 : d ≤ 28)
    (_hy4a : 1000 ≤ y) (hy4b : y ≤ 9999) (hy0 : 1970 ≤ y)
    (hwin1 : ref.year - 1 ≤ (y : Int)) (_hwin2 : (y : Int) ≤ ref.year + 1) :
    ∃ t, date_to_unix (y : Int) entry.2 d = some t ∧
      parse ref (synthInput entry.1 d y) false = some t := by
  obtain ⟨hok, hlook, hb1, hb2⟩ := monthTable_ok entry hmem
  obtain ⟨hp, hq⟩ := c5_core ref entry.1 entry.2 d y hok hlook hb1 hb2 hd1 hd2 hy0 hy4b hwin1
  exact ⟨_, hq, hp⟩

/-- C5 witness: `"march 15, 2024"` against a January 2024 reference date. -/
theorem c5_round_trip_witness :
    ∃ t, date_to_unix 2024 3 15 = some t ∧
      parse ⟨2024, 1, 15⟩ (synthInput "march".data 15 2024) false = some t :=
  c5_round_trip ⟨2024, 1, 15⟩ ("march".data, 3) 15 2024 (by decide) (by decide) (by decide)
    (by decide) (by decide) (by decide) (by decide) (by decide)

/-- C6: the year normalizer first adds 2000 to a year below 1000, and then
overrides a (possibly adjusted) year that is more than one year behind the
current year by the current year; in all other cases the (adjusted) year
passes through unchanged. -/
theorem c6_normalize_year_cases (ref : RefDate) (y : Int) :
    (y < 1000 → ref.year - 1 ≤ y + 2000 → normalize_year ref y = y + 2000) ∧
    (y < 1000 → y + 2000 < ref.year - 1 → normalize_year ref y = ref.year) ∧
    (1000 ≤ y → y < ref.year - 1 → normalize_year ref y = ref.year) ∧
    (1000 ≤ y → ref.year - 1 ≤ y → normalize_year ref y = y) := by
  refine ⟨fun h1 h2 => ?_, fun h1 h2 => ?_, fun h1 h2 => ?_, fun h1 h2 => ?_⟩ <;>
    · simp only [normalize_year]
      split_ifs <;> omega

/-- C6 witness: the four behaviours at concrete years against a reference
year of 2024. -/
theorem c6_normalize_year_cases_witness :
    normalize_year ⟨2024, 1, 15⟩ 24 = 2024 ∧ normalize_year ⟨2024, 1, 15⟩ 5 = 2024 ∧
    normalize_year ⟨2024, 1, 15⟩ 1500 = 2024 ∧ normalize_year ⟨2024, 1, 15⟩ 2030 = 2030 :=
  ⟨(c6_normalize_year_cases ⟨2024, 1, 15⟩ 24).1 (by decide) (by decide),
   (c6_normalize_year_cases ⟨2024, 1, 15⟩ 5).2.1 (by decide) (by decide),
   (c6_normalize_year_cases ⟨2024, 1, 15⟩ 1500).2.2.1 (by decide) (by decide),
   (c6_normalize_year_cases ⟨2024, 1, 15⟩ 2030).2.2.2 (by decide) (by decide)⟩

/-- C2 (counterexample): in `"expires 3/4/24 am"` the two small numeric
sub-fields appear in the order 3 then 4; the resolver yields 1712102400,
which is April 3 of 2024 (month taken from the second field), not
1709510400, March 4 (month taken from the first field), as the claim
dictates. -/
theorem c2_swap_counterexample :
    parse ⟨2024, 1, 15⟩ "expires 3/4/24 am".data false = some 1712102400 ∧
    date_to_unix 2024 4 3 = some 1712102400 ∧
    date_to_unix 2024 3 4 = some 1709510400 ∧
    (1712102400 : Nat) ≠ 1709510400 :=
  ⟨by decide, by decide, by decide, by decide⟩

/-- C2 (amended): for a numeric (non-named-month) shape with the am/pm flag
set, the swap makes the month be extracted from the day position and the
day from the month position, so the sub-field appearing second in the text
becomes the month and the first becomes the day (a later step of the date
builder may swap them back when the month exceeds 12). -/
theorem c2_swap_amended (ref : RefDate) (caps : Caps) (yearIndex : Option Nat)
    (monthIndex dayIndex : Nat) :
    handle_captures ref caps yearIndex monthIndex dayIndex false true =
      handle_captures ref caps yearIndex dayIndex monthIndex false false := rfl

/-- C3: with the reference instant inside the year-normalization window
(reference year 2024), the code resolves `"Expires 2024-3-4"` through the
year-first shape with the four-digit year captured, yielding 1709510400
(2024-03-04), and `"Expires 2024-3-4 PM"` yields 1712102400 (2024-04-03)
because the am/pm marker swaps the two small fields.  Neither equals
1711238400, the value asserted by the claim and by the repository's own
unit test, and adding the marker does change the result. -/
theorem c3_explicit_year_eval :
    parse ⟨2024, 1, 15⟩ "Expires 2024-3-4".data false = some 1709510400 ∧
    parse ⟨2024, 1, 15⟩ "Expires 2024-3-4 PM".data false = some 1712102400 ∧
    (1709510400 : Nat) ≠ 1711238400 ∧ (1712102400 : Nat) ≠ 1711238400 ∧
    (1709510400 : Nat) ≠ 1712102400 :=
  ⟨by decide, by decide, by decide, by decide, by decide⟩

/-- C8: for the repository's own five-line test message with origin
timestamp 0 and an unresolvable expiry line, the fallback expiry is
`0 + 60 * 24 * 7 = 10080` seconds — the code's literal fallback expression,
seven days' worth of minutes used as a second count — and not 604800
seconds (seven days) as the claim states. -/
theorem c8_discord_fallback_eval :
    discord_parse ⟨2024, 1, 15⟩
        "CODE-AAAA-BBBB\nTest Input\nhttps://www.twitch.tv/foo\n1x :bar:\nExpires WeDontKnow".data
        0 = some ("CODE-AAAA-BBBB".data, 10080) ∧
    (10080 : Nat) ≠ 604800 :=
  ⟨by decide, by decide⟩

/-- C4: any non-empty input whose lowercased text contains the literal
"next week" anywhere resolves to UTC midnight exactly seven days after the
reference date, regardless of the surrounding text and of the safety-net
flag; no other shape is consulted. -/
theorem c4_next_week_contains (ref : RefDate) (ts : List Char) (net : Bool)
    (h1 : ts ≠ []) (h2 : containsSub (ts.map Char.toLower) "next week".data = true) :
    parse ref ts net = some (next_week ref) := by
  have hpu : parse_user_expires_string ref (ts.map Char.toLower) = some (next_week ref) := by
    unfold parse_user_expires_string
    rw [h2]
    simp
  unfold parse
  rw [if_neg h1]
  cases net with
  | false => simpa using hpu
  | true =>
    simp only [hpu, Option.map_some', safety_net]
    have h3 : ¬ next_week ref > next_week ref + 2764800 := by omega
    simp [if_neg h3]

/-- C4 witness: a phrase with surrounding text and mixed case, with the
safety net enabled. -/
theorem c4_next_week_contains_witness :
    parse ⟨2024, 1, 15⟩ "Grab it! Expires NEXT WEEK ok?".data true =
      some (next_week ⟨2024, 1, 15⟩) :=
  c4_next_week_contains ⟨2024, 1, 15⟩ _ true (by decide) (by decide)

/-- C1: with the safety net enabled, an instant `u` produced by the
pipeline is replaced by the one-week-from-now value exactly when it exceeds
that value plus 32 days (2764800 seconds) and is returned unchanged
otherwise; consequently every returned instant is at most one-week-from-now
plus 32 days. -/
theorem c1_safety_net_bound (ref : RefDate) (ts : List Char) :
    (∀ u, parse_user_expires_string ref (ts.map Char.toLower) = some u →
      parse ref ts true =
        some (if u > next_week ref + 2764800 then next_week ref else u)) ∧
    (∀ t, parse ref ts true = some t → t ≤ next_week ref + 2764800) := by
  constructor
  · intro u hu
    have h1 : ts ≠ [] := by
      intro h
      rw [h] at hu
      rw [List.map_nil, parse_user_nil] at hu
      exact Option.noConfusion hu
    unfold parse
    rw [if_neg h1]
    simp only [hu, Option.map_some', safety_net]
    simp
  · intro t ht
    unfold parse at ht
    by_cases h1 : ts = []
    · rw [if_pos h1] at ht
      exact Option.noConfusion ht
    · rw [if_neg h1] at ht
      have ht' : (parse_user_expires_string ref (ts.map Char.toLower)).map (safety_net ref) =
          some t := by simpa using ht
      rw [Option.map_eq_some'] at ht'
      obtain ⟨u, _, hsu⟩ := ht'
      unfold safety_net at hsu
      have hsu' : (if u > next_week ref + 2764800 then next_week ref else u) = t := hsu
      split at hsu' <;> omega

/-- C1 witness: the bound and the substitution characterization at the
relative-phrase input against a January 2024 reference date. -/
theorem c1_safety_net_bound_witness :
    parse ⟨2024, 1, 15⟩ "next week".data true =
      some (if next_week ⟨2024, 1, 15⟩ > next_week ⟨2024, 1, 15⟩ + 2764800
            then next_week ⟨2024, 1, 15⟩ else next_week ⟨2024, 1, 15⟩) ∧
    1705881600 ≤ next_week ⟨2024, 1, 15⟩ + 2764800 :=
  ⟨(c1_safety_net_bound ⟨2024, 1, 15⟩ "next week".data).1 (next_week ⟨2024, 1, 15⟩) (by decide),
   (c1_safety_net_bound ⟨2024, 1, 15⟩ "next week".data).2 1705881600 (by decide)⟩

/-- C9: for a physically possible reference instant, every successful
resolution returns a whole multiple of 86400 seconds — UTC midnight of some
day — whether the result came from the relative phrase, from a constructed
calendar date, or from the safety-net substitution (the result type already
makes it non-negative). -/
theorem c9_midnight_invariant (ref : RefDate) (ts : List Char) (net : Bool) (t : Nat)
    (href : ref.Sane) (h : parse ref ts net = some t) : 86400 ∣ t := by
  have hnw : 86400 ∣ next_week ref := (next_week_sane href).2
  unfold parse at h
  by_cases h1 : ts = []
  · rw [if_pos h1] at h
    exact Option.noConfusion h
  · rw [if_neg h1] at h
    cases net with
    | false => exact parse_user_dvd hnw (by simpa using h)
    | true =>
      have h' : (parse_user_expires_string ref (ts.map Char.toLower)).map (safety_net ref) =
          some t := by simpa using h
      rw [Option.map_eq_some'] at h'
      obtain ⟨u, hu, hsu⟩ := h'
      have hud := parse_user_dvd hnw hu
      unfold safety_net at hsu
      have hsu' : (if u > next_week ref + 2764800 then next_week ref else u) = t := hsu
      split at hsu'
      · exact hsu' ▸ hnw
      · exact hsu' ▸ hud

/-- C9 witness: the divisibility at the relative-phrase input against a
January 2024 reference date. -/
theorem c9_midnight_invariant_witness :
    parse ⟨2024, 1, 15⟩ "next week".data true = some 1705881600 ∧ 86400 ∣ 1705881600 :=
  ⟨by decide,
   c9_midnight_invariant ⟨2024, 1, 15⟩ "next week".data true 1705881600
     ⟨by decide, by decide⟩ (by decide)⟩

/-- C10: within one run (`NOW` fixed, every insert storing
`NEXT_TTL = NOW + 604800`), `has` answers true exactly when the stored
expiry of the code is strictly below `NOW`; and once a code has been
inserted, `has` answers false for that code after any further sequence of
inserts and busts of the same run. -/
theorem c10_cache_insert_has (now : Nat) (items : List (String × Nat)) (code : String) :
    (cache_has now items code = true ↔
      ∃ v, assocLookup items code = some v ∧ v < now) ∧
    (∀ items', CacheReach now (cache_insert now items code) items' →
      cache_has now items' code = false) := by
  constructor
  · unfold cache_has
    cases h : assocLookup items code with
    | none => simp
    | some v => simp
  · intro items' hr
    have hgood : ∀ e ∈ items', e.1 = code → now ≤ e.2 :=
      cache_good_reach hr (cache_good_insert now items code)
    unfold cache_has
    cases h : assocLookup items' code with
    | none => rfl
    | some v =>
      have hv := hgood (code, v) (assocLookup_mem h) rfl
      simp only [decide_eq_false_iff_not]
      omega

/-- C10 witness: a stale entry answers true; immediately after inserting
that code it answers false. -/
theorem c10_cache_insert_has_witness :
    cache_has 100 [("a", 5)] "a" = true ∧
    cache_has 100 (cache_insert 100 [("a", 5)] "a") "a" = false :=
  ⟨(c10_cache_insert_has 100 [("a", 5)] "a").1.mpr ⟨5, by decide, by decide⟩,
   (c10_cache_insert_has 100 [("a", 5)] "a").2 _ (CacheReach.refl _)⟩

/-- C7: once one of the numeric or named-month shapes has matched
syntactically (and is the shape selected by the priority order), a failure
of its downstream capture handling — e.g. a month still out of range after
the late swap, or a day invalid for the month and year — makes the whole
resolution return `none`; no lower-priority shape is consulted after the
failure. -/
theorem c7_no_backtracking (ref : RefDate) (l : List Char)
    (hnw : containsSub l "next week".data = false) :
    (∀ g, findCaptures americanEdgeAt l = some g →
      (containsSub l "am".data || containsSub l "pm".data) = true →
      handle_captures ref ⟨some g.1, some g.2.1, some g.2.2⟩ (some 3) 1 2 false
        (containsSub l "am".data || containsSub l "pm".data) = none →
      parse_user_expires_string ref l = none) ∧
    (∀ g, (if (containsSub l "am".data || containsSub l "pm".data) then
             findCaptures americanEdgeAt l else none) = none →
      findCaptures yyyymmddAt l = some g →
      handle_captures ref ⟨g.1, some g.2.1, some g.2.2⟩ (some 1) 2 3 false
        (containsSub l "am".data || containsSub l "pm".data) = none →
      parse_user_expires_string ref l = none) ∧
    (∀ g, (if (containsSub l "am".data || containsSub l "pm".data) then
             findCaptures americanEdgeAt l else none) = none →
      findCaptures yyyymmddAt l = none →
      findCaptures mmddyyyyAt l = some g →
      handle_captures ref ⟨some g.1, some g.2.1, g.2.2⟩ (some 3) 1 2 false
        (containsSub l "am".data || containsSub l "pm".data) = none →
      parse_user_expires_string ref l = none) ∧
    (∀ g, (if (containsSub l "am".data || containsSub l "pm".data) then
             findCaptures americanEdgeAt l else none) = none →
      findCaptures yyyymmddAt l = none →
      findCaptures mmddyyyyAt l = none →
      findCaptures engdateAt l = some g →
      handle_captures ref ⟨some g.1, some g.2.1, g.2.2⟩ (some 3) 1 2 true
        (containsSub l "am".data || containsSub l "pm".data) = none →
      parse_user_expires_string ref l = none) := by
  refine ⟨?_, ?_, ?_, ?_⟩
  · intro g hg ham hh
    rw [ham] at hh
    rw [parse_user_unfold ref l hnw, ham, hg]
    exact hh
  · intro g hedge hg hh
    rw [parse_user_unfold ref l hnw, hedge, hg]
    exact hh
  · intro g hedge h1 hg hh
    rw [parse_user_unfold ref l hnw, hedge, h1, hg]
    exact hh
  · intro g hedge h1 h2 hg hh
    rw [parse_user_unfold ref l hnw, hedge, h1, h2, hg]
    exact hh

/-- C7 witness: `"expires 2-30"` matches the year-first shape with month 2
and day 30; February 30 fails date construction and the resolution is
`none`, although the lower-priority named-month shape also matches this
input and its handling would have succeeded (yielding 1704153600). -/
theorem c7_no_backtracking_witness :
    parse_user_expires_string ⟨2024, 1, 15⟩ "expires 2-30".data = none ∧
    findCaptures engdateAt "expires 2-30".data = some ("expires".data, ['2'], none) ∧
    handle_captures ⟨2024, 1, 15⟩ ⟨some "expires".data, some ['2'], none⟩ (some 3) 1 2 true
      (containsSub "expires 2-30".data "am".data ||
        containsSub "expires 2-30".data "pm".data) = some 1704153600 :=
  ⟨(c7_no_backtracking ⟨2024, 1, 15⟩ "expires 2-30".data (by decide)).2.1
     (none, ['2'], ['3', '0']) (by decide) (by decide) (by decide),
   by decide, by decide⟩

end Crawler
